import Mathlib

/-!
Shallow embedding of the voice-command subsystem of the SOPMaker
repository: the transcript normalizer and fuzzy matcher of
`src/src/utils/commandUtils.ts`, the exact-then-fuzzy command dispatcher of
`CommandProcessor.attemptCommandExecution`, the no-speech retry/backoff
handler and `startListening`/`stopListening` of
`src/src/services/VoiceInputService.ts`, and the material index resolution
of the materials form component (`getMaterialIndex`, remove-material
branch).

Strings are modelled as `List Char` (with `String` wrappers where a claim
speaks about strings).  JS `toLowerCase` is modelled by `Char.toLower`
(faithful on ASCII, which is all this pipeline produces), JS `\s` by
`Char.isWhitespace` (space, tab, CR, LF), and JS `\w` by ASCII
alphanumerics plus underscore.
-/

namespace SOP

/-- JS regex class `\w`, that is `[A-Za-z0-9_]`. -/
def isWordChar (c : Char) : Bool := c.isAlphanum || c == '_'

/-- Whitespace as matched by the JS `\s` class and trimmed by `trim`
(restricted to the ASCII whitespace actually occurring here). -/
def isWs (c : Char) : Bool := c.isWhitespace

/-- JS `String.prototype.trim`: drop whitespace from both ends. -/
def trimL (l : List Char) : List Char :=
  ((l.dropWhile isWs).reverse.dropWhile isWs).reverse

/-- Position inside one `(\w\.?\s?)` block of the acronym-shape regex:
at a block boundary, after the mandatory `\w`, or after the optional
period. -/
inductive AcrPos
  | blockStart
  | afterWord
  | afterDot
deriving DecidableEq

/-- Anchored matcher for the body of `/^(\w\.?\s?)*$/`.  The first sets of
the regex alternatives are pairwise disjoint (a word character is neither
a period nor whitespace), so this deterministic left-to-right automaton
coincides with the backtracking regex semantics.  Every position accepts
at end of input because both block parts `\.?` and `\s?` are optional. -/
def acrRun : AcrPos → List Char → Bool
  | _, [] => true
  | .blockStart, c :: rest => isWordChar c && acrRun .afterWord rest
  | .afterWord, c :: rest =>
    if c = '.' then acrRun .afterDot rest
    else if isWs c then acrRun .blockStart rest
    else isWordChar c && acrRun .afterWord rest
  | .afterDot, c :: rest =>
    if isWs c then acrRun .blockStart rest
    else isWordChar c && acrRun .afterWord rest

/-- Embedding of `isAcronymSpelling` from commandUtils.ts: `/^(\w\.?\s?)+$/.test(input)`.
The `+` requires at least one block, so the empty string fails. -/
def isAcronymSpelling (l : List Char) : Bool := !l.isEmpty && acrRun .blockStart l

/-- The phonetic letter lookup table `phoneticMap` of commandUtils.ts. -/
def phoneticMap : List (List Char × List Char) :=
  [("ess".data, "s".data), ("oh".data, "o".data), ("pee".data, "p".data),
   ("see".data, "c".data), ("you".data, "u".data), ("are".data, "r".data),
   ("kay".data, "k".data)]

/-- First-match association lookup (JS object property access on the fixed
string-keyed tables used here). -/
def lookupL (m : List (List Char × List Char)) (k : List Char) : Option (List Char) :=
  match m with
  | [] => none
  | e :: rest => if k = e.1 then some e.2 else lookupL rest k

/-- Lookup `phoneticMap[letter] || letter`: all table values are nonempty strings,
so JS truthiness of the looked-up value reduces to key presence. -/
def phoneticFix (tok : List Char) : List Char :=
  match lookupL phoneticMap tok with
  | some v => v
  | none => tok

/-- JS `String.prototype.split(/\s+/)`: tokens between maximal whitespace
runs, including an empty token before a leading run and after a trailing
run.  A whitespace character opens a new (empty) token exactly when it is
the last character of its run, i.e. when the next character is absent or
not whitespace; interior characters of a run contribute nothing. -/
def splitWs : List Char → List (List Char)
  | [] => [[]]
  | c :: r =>
    if isWs c then
      match r with
      | [] => [[], []]
      | d :: _ => if isWs d then splitWs r else [] :: splitWs r
    else
      match splitWs r with
      | [] => [[c]]
      | t :: ts => (c :: t) :: ts

/-- JS `Array.prototype.join(' ')`. -/
def joinSpace : List (List Char) → List Char
  | [] => []
  | [t] => t
  | t :: rest => t ++ ' ' :: joinSpace rest

/-- The character map of `.replace(/\./g, ' ')`. -/
def dotToSpace (c : Char) : Char := if c = '.' then ' ' else c

/-- The acronym-spelling branch of `normalizeCommand`:
`.replace(/\./g, ' ').split(/\s+/).map(letter => phoneticMap[letter] || letter).join(' ')`. -/
def acronymPass (l : List Char) : List Char :=
  joinSpace ((splitWs (l.map dotToSpace)).map phoneticFix)

/-- The `mishearingMap` table of `normalizeCommand`, in declaration order
(JS `Object.entries` preserves insertion order for these string keys). -/
def mishearingMap : List (List Char × List Char) :=
  [("sahp".data, "s o p".data),
   ("add stop".data, "add step".data),
   ("at step".data, "add step".data),
   ("ad step".data, "add step".data),
   ("add staff".data, "add step".data),
   ("add stepp".data, "add step".data),
   ("add materials".data, "add material".data),
   ("ad materials".data, "add material".data),
   ("remove materials".data, "remove material".data),
   ("delete materials".data, "remove material".data),
   ("next step".data, "next".data),
   ("go to next".data, "next".data),
   ("go next".data, "next".data),
   ("go back".data, "previous".data),
   ("previous step".data, "previous".data),
   ("go to previous".data, "previous".data),
   ("_acronym_timeout".data, "2000".data)]

/-- Boolean prefix test on character lists. -/
def isPrefixB : List Char → List Char → Bool
  | [], _ => true
  | _ :: _, [] => false
  | a :: as, b :: bs => a == b && isPrefixB as bs

/-- JS `String.prototype.includes`: `k` occurs as a contiguous substring. -/
def containsSub (k : List Char) : List Char → Bool
  | [] => isPrefixB k []
  | l@(_ :: rest) => isPrefixB k l || containsSub k rest

/-- JS `String.prototype.replace` with a string pattern: replace only the
first occurrence of `k` by `v` (the identity when `k` does not occur). -/
def replaceFirst (k v : List Char) : List Char → List Char
  | [] => if isPrefixB k [] then v else []
  | l@(c :: rest) =>
    if isPrefixB k l then v ++ l.drop k.length else c :: replaceFirst k v rest

/-- One `mishearingMap` entry applied as in the source:
`if (normalized.includes(misheard)) normalized = normalized.replace(misheard, corrected)`. -/
def applyMishear (l : List Char) (e : List Char × List Char) : List Char :=
  if containsSub e.1 l then replaceFirst e.1 e.2 l else l

/-- The `Object.entries(mishearingMap).forEach` loop. -/
def applyMishearings (l : List Char) : List Char :=
  mishearingMap.foldl applyMishear l

/-- Pass one, `command.toLowerCase().trim()`, the first pass of `normalizeCommand`. -/
def lowerTrim (l : List Char) : List Char := trimL (l.map Char.toLower)

/-- The conditional acronym-spelling pass of `normalizeCommand`. -/
def acronymStage (l : List Char) : List Char :=
  if isAcronymSpelling l then acronymPass l else l

/-- Embedding of `normalizeCommand` of commandUtils.ts on character lists. -/
def normalizeCmdL (l : List Char) : List Char :=
  applyMishearings (acronymStage (lowerTrim l))

/-- Embedding of `normalizeCommand` of commandUtils.ts. -/
def normalizeCommand (s : String) : String := ⟨normalizeCmdL s.data⟩

/-- Letters joined by a single separator character, the shape of a
spelled-out acronym utterance (`sepBy '.' ['s','o','p'] = "s.o.p"` and
`sepBy ' ' ['s','o','p'] = "s o p"`). -/
def sepBy (sep : Char) : List Char → List Char
  | [] => []
  | [c] => [c]
  | c :: rest => c :: sep :: sepBy sep rest

/-- The keyword filter of `fuzzyCommandMatch`:
`keywords.filter(keyword => normalizedCommand.includes(keyword.toLowerCase()))`. -/
def fuzzyMatchedKeywords (command : String) (keywords : List String) : List String :=
  keywords.filter (fun k => containsSub (k.data.map Char.toLower) (normalizeCmdL command.data))

/-- Embedding of `fuzzyCommandMatch` of commandUtils.ts.  JS computes
`matchedKeywords.length / keywords.length` as a float; for an empty
keyword list this is `0/0 = NaN`, and `NaN >= threshold` is false, which
the empty-list branch renders explicitly.  For nonempty lists the ratio of
two small naturals compares against the threshold exactly as the rational
comparison does. -/
def fuzzyCommandMatch (command : String) (keywords : List String)
    (threshold : ℚ) : Bool :=
  let matched := fuzzyMatchedKeywords command keywords
  if keywords.length = 0 then false
  else decide (((matched.length : ℚ) / (keywords.length : ℚ)) ≥ threshold)

/-- Default fuzzy threshold (`threshold: number = 0.7`). -/
def defaultFuzzyThreshold : ℚ := 7/10


/-- JS truthiness of a nullable string: `null` and the empty string are
falsy, every other string is truthy. -/
def jsTruthyStr : Option String → Bool
  | none => false
  | some s => decide (s ≠ "")

/-- State of `CommandPauseHandler` in commandUtils.ts.  `Date.now()` is
passed explicitly as `now` to the operations. -/
structure CommandPauseHandler where
  lastCommand : Option String
  lastTimestamp : ℤ
  pauseTimeoutMs : ℤ

/-- Embedding of `CommandPauseHandler.getCombinedCommand`: the guard is
`this.lastCommand && Date.now() - this.lastTimestamp < this.pauseTimeoutMs`,
where the first conjunct is JS truthiness of the stored string. -/
def CommandPauseHandler.getCombinedCommand (h : CommandPauseHandler) (now : ℤ)
    (currentCommand : String) : String :=
  if jsTruthyStr h.lastCommand && decide (now - h.lastTimestamp < h.pauseTimeoutMs) then
    h.lastCommand.getD "" ++ " " ++ currentCommand
  else
    currentCommand

/-- Embedding of `CommandPauseHandler.updateContext`: reports whether the new command
continues the previous one, then records the new command and time. -/
def CommandPauseHandler.updateContext (h : CommandPauseHandler) (now : ℤ)
    (command : String) : Bool × CommandPauseHandler :=
  let isContinuation :=
    decide (h.lastCommand ≠ none) && decide (now - h.lastTimestamp < h.pauseTimeoutMs)
  (isContinuation, { h with lastCommand := some command, lastTimestamp := now })

/-- Embedding of `CommandPauseHandler.resetContext`. -/
def CommandPauseHandler.resetContext (h : CommandPauseHandler) : CommandPauseHandler :=
  { h with lastCommand := none, lastTimestamp := 0 }

/-- A `RegExpMatchArray` abstracted to its list of captured groups. -/
abbrev MatchData := List (Option String)

/-- Embedding of `CommandDefinition` from the command processor.  Patterns are
abstracted to matchers returning the match data on success; the optional
`alternativePatterns` field is a (possibly empty) list. -/
structure CommandDefinition where
  pattern : String → Option MatchData
  alternativePatterns : List (String → Option MatchData)
  handler : String → Option MatchData → Bool
  keywords : List String

/-- The inner loop over `cmd.alternativePatterns`: first alternative match
wins. -/
def firstAltMatch (pats : List (String → Option MatchData)) (s : String) :
    Option MatchData :=
  match pats with
  | [] => none
  | p :: rest =>
    match p s with
    | some m => some m
    | none => firstAltMatch rest s

/-- One iteration of the exact phase for a single command: test the
primary pattern, then the alternative patterns. -/
def exactMatchOf (cmd : CommandDefinition) (s : String) : Option MatchData :=
  match cmd.pattern s with
  | some m => some m
  | none => firstAltMatch cmd.alternativePatterns s

/-- The first `for` loop of `attemptCommandExecution`: exact pattern
matching over registered commands, returning the matched handler's result
on the first structural match. -/
def exactPhase : List CommandDefinition → String → Option Bool
  | [], _ => none
  | cmd :: rest, s =>
    match exactMatchOf cmd s with
    | some m => some (cmd.handler s (some m))
    | none => exactPhase rest s

/-- The second `for` loop of `attemptCommandExecution`: fuzzy keyword
matching at the default threshold, invoking the handler with a null match
on the first command clearing the threshold. -/
def fuzzyPhase : List CommandDefinition → String → Bool
  | [], _ => false
  | cmd :: rest, s =>
    if fuzzyCommandMatch s cmd.keywords defaultFuzzyThreshold then cmd.handler s none
    else fuzzyPhase rest s

/-- Embedding of `CommandProcessor.attemptCommandExecution`: exact phase first; the
fuzzy phase runs only when the exact phase found no match in any command;
`false` when both phases fail. -/
def attemptCommandExecution (cmds : List CommandDefinition) (s : String) : Bool :=
  match exactPhase cmds s with
  | some b => b
  | none => fuzzyPhase cmds s

/-- The control key of the mishearing table (`'_acronym_timeout'`). -/
def acronymTimeoutKey : List Char := "_acronym_timeout".data

/-- The replacement of the control entry (`'2000'`). -/
def acronymTimeoutVal : List Char := "2000".data

/-- Decidable overlap possibility between two patterns: `overlapB k p`
is `true` when some nonempty suffix of one pattern is prefix-comparable
with the other, i.e. exactly when occurrences of `k` and `p` in a common
string could share a position.  When it is `false`, replacing an
occurrence of `k` cannot destroy an occurrence of `p`. -/
def overlapB (k p : List Char) : Bool :=
  ((List.range k.length).any fun m =>
    isPrefixB (k.drop m) p || isPrefixB p (k.drop m)) ||
  ((List.range p.length).any fun t =>
    isPrefixB (p.drop t) k || isPrefixB k (p.drop t))

/-- A demonstration registry entry for concrete instantiations: an
"add step" command whose primary pattern captures the remainder of the
utterance and whose handler reports success. -/
def demoAddStep : CommandDefinition where
  pattern := fun s =>
    if isPrefixB "add step ".data s.data then some [some (String.mk (s.data.drop 9))]
    else none
  alternativePatterns := []
  handler := fun _ _ => true
  keywords := ["add", "step"]

/-- A demonstration one-command registry. -/
def demoCommands : List CommandDefinition := [demoAddStep]

/-- Configuration constants of `VoiceInputService`. -/
def maxRetries : ℕ := 5

/-- Constant `retryDelay = 1500` (ms). -/
def retryDelay : ℚ := 1500

/-- Constant `backoffFactor = 1.5`. -/
def backoffFactor : ℚ := 3/2

/-- Outcome of one run of the `onerror` handler for the `no-speech` error
kind: the retry counter after the handler, the delay of the scheduled
`recognition.start()` retry if one was scheduled, and whether the handler
invoked `stopListening` (the post-switch stop at the end of `onerror` is
skipped for `no-speech` and `aborted`). -/
structure NoSpeechOutcome where
  retryCount : ℕ
  scheduledRetryDelay : Option ℚ
  stopListeningCalled : Bool
deriving DecidableEq

/-- The `case 'no-speech'` branch of `recognition.onerror` in
`VoiceInputService.setupRecognitionHandlers`, as a function of the
pre-error state and the random jitter drawn by `Math.random() * 500`.
When `isListening && retryCount < maxRetries`, the counter is incremented
and a retry is scheduled after
`retryDelay * backoffFactor ^ (retryCount - 1) + jitter` (the power uses
the post-increment counter minus one, i.e. the pre-increment counter) and
the handler returns early.  Otherwise it falls through to the final
`if (event.error !== 'no-speech' && event.error !== 'aborted')` stop,
which does nothing for `no-speech`. -/
def handleNoSpeech (isListening : Bool) (retryCount : ℕ) (jitter : ℚ) :
    NoSpeechOutcome :=
  if isListening && decide (retryCount < maxRetries) then
    { retryCount := retryCount + 1
      scheduledRetryDelay := some (retryDelay * backoffFactor ^ retryCount + jitter)
      stopListeningCalled := false }
  else
    { retryCount := retryCount
      scheduledRetryDelay := none
      stopListeningCalled := false }

/-- The four possible `targetField` values of `VoiceInputService`. -/
inductive TargetField
  | title
  | description
  | materials
  | step
deriving DecidableEq

/-- Engine-level effects of the session manager, in the order they are
issued: stopping the underlying recognition engine, and scheduling the
deferred `recognition.start()` of a new session. -/
inductive EngineAction
  | engineStop
  | engineStartScheduled
deriving DecidableEq

/-- The mutable static state of `VoiceInputService` relevant to session
handling.  `hasEngine` models `this.recognition !== null`. -/
structure VoiceState where
  isListening : Bool
  hasEngine : Bool
  targetField : Option TargetField
  interimResults : String
  finalResults : String
  retryCount : ℕ
deriving DecidableEq

/-- Embedding of `VoiceInputService.resetState`: clears listening state and buffers;
`targetField` (and the callback) are cleared only by a deferred 500 ms
timeout, so within the synchronous window modelled here they retain their
values. -/
def resetState (s : VoiceState) : VoiceState :=
  { s with isListening := false, interimResults := "", finalResults := "", retryCount := 0 }

/-- Embedding of `VoiceInputService.stopListening`: timers are cleared first; when not
listening (or without an engine) the state is reset and `true` returned
without touching the engine; otherwise `recognition.stop()` is issued and
the state reset (the success path of the `try` is modelled). -/
def stopListening (s : VoiceState) : Bool × VoiceState × List EngineAction :=
  if !s.isListening || !s.hasEngine then (true, resetState s, [])
  else (true, resetState s, [EngineAction.engineStop])

/-- Embedding of `VoiceInputService.startListening targetField callback`, as a function
of platform support (`window.SpeechRecognition` availability checked by
`initialize`).  If already listening to the same field, it returns `true`
immediately without touching the engine.  Otherwise a live session is
stopped synchronously first, then `initialize` runs (failing when the
platform is unsupported), then the new session state is set up and the
deferred `recognition.start()` is scheduled; the success path of the
scheduled start (which sets `isListening`) is folded into the result
state. -/
def startListening (supported : Bool) (s : VoiceState) (tf : TargetField) :
    Bool × VoiceState × List EngineAction :=
  if s.isListening && decide (s.targetField = some tf) then
    (true, s, [])
  else
    let stopped := if s.isListening then stopListening s else (true, s, [])
    let s1 := stopped.2.1
    let pre := stopped.2.2
    if !supported then (false, s1, pre)
    else
      (true,
       { s1 with
           hasEngine := true
           targetField := some tf
           interimResults := ""
           finalResults := ""
           retryCount := 0
           isListening := true },
       pre ++ [EngineAction.engineStartScheduled])

/-- A material row of the materials form component. -/
structure Material where
  id : ℕ
  name : String
deriving DecidableEq

/-- Decimal value of a digit run. -/
def digitsToNat (l : List Char) : ℕ :=
  l.foldl (fun a c => 10 * a + (c.toNat - '0'.toNat)) 0

/-- JS `parseInt` on the index tokens reaching `getMaterialIndex`: skip
leading whitespace, read an optional sign and then a leading decimal digit
run; `NaN` (here `none`) when no digit follows.  (The `0x` hexadecimal
autodetection of `parseInt` is unreachable from the capture group
`(\d+|last|\w+)`: a capture starting with a digit is an all-digit run
because the `\d+` alternative is tried first.) -/
def parseIntJS (s : List Char) : Option ℤ :=
  let t := s.dropWhile isWs
  let signAndRest : ℤ × List Char :=
    match t with
    | '-' :: r => (-1, r)
    | '+' :: r => (1, r)
    | r => (1, r)
  let ds := signAndRest.2.takeWhile Char.isDigit
  if ds.isEmpty then none else some (signAndRest.1 * (digitsToNat ds : ℤ))

/-- Embedding of `getMaterialIndex` of the materials form component: the literal token
`last` resolves to the final index, a parsed integer is converted from
1-based to 0-based, and otherwise the first material whose lowercased name
contains the lowercased token is used (`findIndex` returns `-1` when no
name matches, and the final `nameIndex !== -1 ? nameIndex : -1` is the
identity on that result). -/
def getMaterialIndex (materials : List Material) (indexStr : String) : ℤ :=
  if indexStr.data.map Char.toLower = "last".data then (materials.length : ℤ) - 1
  else
    match parseIntJS indexStr.data with
    | some n => n - 1
    | none =>
      match materials.findIdx? (fun m =>
          containsSub (indexStr.data.map Char.toLower) (m.name.data.map Char.toLower)) with
      | some i => (i : ℤ)
      | none => -1

/-- Embedding of `removeMaterial(id)`: `setMaterials(materials.filter(m => m.id !== id))`. -/
def removeMaterial (materials : List Material) (id : ℕ) : List Material :=
  materials.filter (fun m => decide (m.id ≠ id))

/-- The `removeMaterialPattern` branch of `processVoiceCommand`, given the
captured index token: resolve the index, check bounds explicitly, and
either remove the referenced material and succeed, or fail cleanly with an
error toast and an unchanged collection. -/
def removeMaterialBranch (materials : List Material) (capturedArg : String) :
    Bool × List Material :=
  let index := getMaterialIndex materials capturedArg
  if h : 0 ≤ index ∧ index < (materials.length : ℤ) then
    (true, removeMaterial materials (materials.get ⟨index.toNat, by omega⟩).id)
  else
    (false, materials)

/-- The verb alternatives of `removeMaterialPattern`, in alternation
order. -/
def removeVerbs : List (List Char) :=
  ["remove".data, "delete".data, "eliminate".data, "get rid of".data]

/-- The collection-noun alternatives shared by the material command
patterns, in alternation order. -/
def materialNouns : List (List Char) :=
  ["material".data, "materials".data, "item".data, "items".data,
   "ingredient".data, "ingredients".data, "supply".data, "supplies".data]

/-- The verb alternatives of `addMaterialPattern`, in alternation order. -/
def addVerbs : List (List Char) :=
  ["add".data, "create".data, "new".data, "ad".data, "at".data, "put".data,
   "insert".data]

/-- Test `addMaterialTest` models `addMaterialPattern.test(command)`: the
pattern is unanchored, nothing anchors the end of the noun alternative,
and the trailing group `(?:\s+(.+))?` is optional, so the test succeeds
exactly when some verb alternative followed by a space and a noun
alternative occurs as a substring (case-insensitively, per the `/i`
flag). -/
def addMaterialTest (s : List Char) : Bool :=
  addVerbs.any (fun v => materialNouns.any (fun n =>
    containsSub (v ++ ' ' :: n) (s.map Char.toLower)))

/-- The capture of `removeMaterialPattern` for inputs on which the match
is anchored at position 0 (as in the end-to-end removal scenario, whose
leftmost match starts the string): try each verb and noun alternative in
alternation order against the lowercased input (the `/i` flag), then
capture the leading `\w+` run of the remainder, which must be nonempty. -/
def removeMaterialCapture (s : List Char) : Option (List Char) :=
  removeVerbs.findSome? (fun v =>
    materialNouns.findSome? (fun n =>
      let pat := v ++ ' ' :: (n ++ [' '])
      if isPrefixB pat (s.map Char.toLower) then
        let tok := (s.drop pat.length).takeWhile isWordChar
        if tok.isEmpty then none else some tok
      else none))

/-- The slice of the `processVoiceCommand` if/else chain deciding material
removal: `addMaterialPattern` is tested first and takes the input out of
this slice; otherwise a `removeMaterialPattern` match (with its nonempty
`match[1]`) runs the removal branch.  `none` means a branch outside this
slice (or no pattern at all) handles the input. -/
def processVoiceCommandRemoveSlice (materials : List Material) (s : String) :
    Option (Bool × List Material) :=
  if addMaterialTest s.data then none
  else
    match removeMaterialCapture s.data with
    | some arg => some (removeMaterialBranch materials (String.mk arg))
    | none => none

/-- A demonstration materials collection of length 3. -/
def demoMaterials : List Material :=
  [⟨1, "water"⟩, ⟨2, "salt"⟩, ⟨3, "sugar"⟩]


-- Sanity checks of the embedding on concrete inputs.
example : normalizeCommand "s.o.p" = "s o p" := by decide
example : normalizeCommand "S O P " = "s o p" := by decide
example : normalizeCommand "ad step pour water" = "add step pour water" := by decide
example : normalizeCommand "a." = "a " := by decide
example : normalizeCommand "ess.oh.pee" = "s o p" := by decide
example : isAcronymSpelling "add step".data = true := by decide
example : isAcronymSpelling "hello?".data = false := by decide
example : (fuzzyMatchedKeywords "add the material now" ["add", "material"]).length = 2 := by
  decide
example : (fuzzyMatchedKeywords "st materail flor" ["add", "material"]).length = 0 := by
  decide

-- Sanity checks of the material-command embedding.
example : parseIntJS "2".data = some 2 := by decide
example : parseIntJS "last".data = none := by decide
example : parseIntJS "2abc".data = some 2 := by decide
example : addMaterialTest "remove material last".data = false := by decide
example : addMaterialTest "add material water".data = true := by decide
example : removeMaterialCapture "remove material last".data = some "last".data := by
  decide
example : removeMaterialCapture "remove materials 2".data = some "2".data := by decide

/-- C9: a command registered with no keywords can never win the fuzzy
phase.  With an empty keyword list the JS score is `0/0 = NaN`, the
comparison `NaN >= threshold` is false (rendered by the explicit
empty-list branch of the embedding), so `fuzzyCommandMatch` returns
`false` for every input string and every threshold, rather than throwing
or matching. -/
theorem fuzzyCommandMatch_empty_keywords (command : String) (threshold : ℚ) :
    fuzzyCommandMatch command [] threshold = false := rfl

/-- C5 counterexample: the claim's "a previous command is stored" is not
sufficient.  With the empty string stored as previous command (which JS
truthiness treats as absent) and elapsed time `1000 < 5000`,
`getCombinedCommand "save"` returns `"save"` unchanged instead of the
claimed concatenation `"" ++ " " ++ "save"`. -/
theorem getCombinedCommand_empty_previous_counterexample :
    (⟨some "", 0, 5000⟩ : CommandPauseHandler).getCombinedCommand 1000 "save" = "save" ∧
    (⟨some "", 0, 5000⟩ : CommandPauseHandler).lastCommand = some "" ∧
    ((1000 : ℤ) - 0 < 5000) ∧
    "save" ≠ "" ++ " " ++ "save" := by
  refine ⟨by decide, rfl, by decide, by decide⟩

/-- C5 (amended): `getCombinedCommand current` returns
`previous ++ " " ++ current` exactly when a previous command is stored,
it is nonempty (JS truthiness of the stored string), and the elapsed time
is strictly below the timeout; otherwise — at exactly the timeout or
beyond, with nothing stored, or with the empty string stored — it returns
`current` unchanged. -/
theorem getCombinedCommand_spec (h : CommandPauseHandler) (now : ℤ) (cur : String) :
    (h.getCombinedCommand now cur = h.lastCommand.getD "" ++ " " ++ cur
      ↔ (jsTruthyStr h.lastCommand = true ∧ now - h.lastTimestamp < h.pauseTimeoutMs)) ∧
    (¬(jsTruthyStr h.lastCommand = true ∧ now - h.lastTimestamp < h.pauseTimeoutMs) →
      h.getCombinedCommand now cur = cur) := by
  have hlen : cur ≠ h.lastCommand.getD "" ++ " " ++ cur := by
    intro he
    have hl := congrArg String.length he
    rw [String.length_append, String.length_append] at hl
    have hsp : (" " : String).length = 1 := rfl
    rw [hsp] at hl
    omega
  by_cases hc : jsTruthyStr h.lastCommand = true ∧ now - h.lastTimestamp < h.pauseTimeoutMs
  · have hb : (jsTruthyStr h.lastCommand &&
        decide (now - h.lastTimestamp < h.pauseTimeoutMs)) = true := by
      rw [hc.1, Bool.true_and]
      exact decide_eq_true hc.2
    have heq : h.getCombinedCommand now cur = h.lastCommand.getD "" ++ " " ++ cur := by
      rw [CommandPauseHandler.getCombinedCommand, hb]
      simp
    exact ⟨iff_of_true heq hc, fun hn => absurd hc hn⟩
  · have hb : (jsTruthyStr h.lastCommand &&
        decide (now - h.lastTimestamp < h.pauseTimeoutMs)) = false := by
      rcases not_and_or.mp hc with h1 | h1
      · have h1f : jsTruthyStr h.lastCommand = false := by simpa using h1
        rw [h1f, Bool.false_and]
      · have h1f : decide (now - h.lastTimestamp < h.pauseTimeoutMs) = false := by
          simpa using h1
        rw [h1f, Bool.and_false]
    have heq : h.getCombinedCommand now cur = cur := by
      rw [CommandPauseHandler.getCombinedCommand, hb]
      simp
    constructor
    · rw [heq]
      exact iff_of_false hlen hc
    · intro _
      exact heq

/-- C5 witness: the amended characterization instantiated at a stored
nonempty previous command within the timeout window. -/
theorem getCombinedCommand_spec_witness :
    ((⟨some "go", 0, 5000⟩ : CommandPauseHandler).getCombinedCommand 1000 "next" =
        (some "go" : Option String).getD "" ++ " " ++ "next"
      ↔ (jsTruthyStr (some "go") = true ∧ (1000 : ℤ) - 0 < 5000)) ∧
    (¬(jsTruthyStr (some "go") = true ∧ (1000 : ℤ) - 0 < 5000) →
      (⟨some "go", 0, 5000⟩ : CommandPauseHandler).getCombinedCommand 1000 "next" = "next") :=
  getCombinedCommand_spec ⟨some "go", 0, 5000⟩ 1000 "next"

/-- C2 counterexample: at the retry ceiling the claim requires the session
to transition to the error state, but the `no-speech` handler schedules no
retry *and* performs no stop/error transition — the final
`if (event.error !== 'no-speech' && event.error !== 'aborted') stopListening()`
is skipped for `no-speech`, so the session stays logically listening. -/
theorem handleNoSpeech_ceiling_counterexample :
    (handleNoSpeech true maxRetries 0).scheduledRetryDelay = none ∧
    (handleNoSpeech true maxRetries 0).stopListeningCalled = false ∧
    (handleNoSpeech true maxRetries 0).retryCount = maxRetries := by
  refine ⟨rfl, rfl, rfl⟩

/-- C2 (amended): below the ceiling of `maxRetries = 5`, the scheduled
`no-speech` retry delay `retryDelay * backoffFactor ^ retryCount + jitter`
strictly increases with the retry count even across the 0–500 ms jitter
(consecutive base delays differ by at least `750`); at the ceiling no
further retry is scheduled, but `stopListening` is *not* invoked (the
post-switch stop skips `no-speech`), so the session does not transition to
an error state and the counter stays put. -/
theorem handleNoSpeech_backoff_policy (r1 r2 : ℕ) (j1 j2 : ℚ)
    (h12 : r1 < r2) (h2 : r2 < maxRetries)
    (_hj1l : 0 ≤ j1) (hj1u : j1 ≤ 500) (hj2l : 0 ≤ j2) (_hj2u : j2 ≤ 500) :
    (∃ d1 d2,
      (handleNoSpeech true r1 j1).scheduledRetryDelay = some d1 ∧
      (handleNoSpeech true r1 j1).retryCount = r1 + 1 ∧
      (handleNoSpeech true r2 j2).scheduledRetryDelay = some d2 ∧
      d1 < d2) ∧
    (∀ (r : ℕ) (j : ℚ), maxRetries ≤ r →
      (handleNoSpeech true r j).scheduledRetryDelay = none ∧
      (handleNoSpeech true r j).stopListeningCalled = false ∧
      (handleNoSpeech true r j).retryCount = r) := by
  have h1 : r1 < maxRetries := lt_trans h12 h2
  constructor
  · refine ⟨retryDelay * backoffFactor ^ r1 + j1, retryDelay * backoffFactor ^ r2 + j2,
      ?_, ?_, ?_, ?_⟩
    · simp [handleNoSpeech, h1]
    · simp [handleNoSpeech, h1]
    · simp [handleNoSpeech, h2]
    · have hbase : (1 : ℚ) ≤ backoffFactor := by norm_num [backoffFactor]
      have hpow1 : (1 : ℚ) ≤ backoffFactor ^ r1 := by
        have h0 := pow_le_pow_right₀ hbase (Nat.zero_le r1)
        simpa using h0
      have hpow : backoffFactor ^ (r1 + 1) ≤ backoffFactor ^ r2 :=
        pow_le_pow_right₀ hbase h12
      have hstep : backoffFactor ^ (r1 + 1) = backoffFactor ^ r1 * backoffFactor := by ring
      have hmul : retryDelay * (backoffFactor ^ r1 * backoffFactor) ≤
          retryDelay * backoffFactor ^ r2 := by
        rw [← hstep]
        exact mul_le_mul_of_nonneg_left hpow (by norm_num [retryDelay])
      have hexp : retryDelay * (backoffFactor ^ r1 * backoffFactor) =
          retryDelay * backoffFactor ^ r1 + 750 * backoffFactor ^ r1 := by
        rw [show backoffFactor = 3/2 from rfl, show retryDelay = (1500 : ℚ) from rfl]
        ring
      linarith
  · intro r j hr
    have : ¬(r < maxRetries) := not_lt.mpr hr
    refine ⟨?_, ?_, ?_⟩ <;> simp [handleNoSpeech, this]

/-- C2 witness: the amended retry policy instantiated at retry counts 0
and 1 with zero jitter. -/
theorem handleNoSpeech_backoff_policy_witness :
    ((0 : ℕ) < 1 ∧ (1 : ℕ) < maxRetries ∧ (0 : ℚ) ≤ 0 ∧ (0 : ℚ) ≤ 500) ∧
    ((∃ d1 d2,
      (handleNoSpeech true 0 0).scheduledRetryDelay = some d1 ∧
      (handleNoSpeech true 0 0).retryCount = 0 + 1 ∧
      (handleNoSpeech true 1 0).scheduledRetryDelay = some d2 ∧
      d1 < d2) ∧
    (∀ (r : ℕ) (j : ℚ), maxRetries ≤ r →
      (handleNoSpeech true r j).scheduledRetryDelay = none ∧
      (handleNoSpeech true r j).stopListeningCalled = false ∧
      (handleNoSpeech true r j).retryCount = r)) :=
  ⟨⟨by decide, by decide, by decide, by decide⟩,
   handleNoSpeech_backoff_policy 0 1 0 0 (by decide) (by decide)
     (by decide) (by decide) (by decide) (by decide)⟩

/-- C3: at most one recognition session runs at a time.  A second
`startListening` for the *same* target field while listening returns
`true`, leaves the state untouched and issues no engine action (no second
engine instance); for a *different* target field, the live session is
stopped synchronously (the `engineStop` action precedes the scheduled
engine start of the new session) before the new session state is set
up. -/
theorem startListening_single_session (s : VoiceState) (tf tf' : TargetField)
    (hL : s.isListening = true) (hT : s.targetField = some tf)
    (hE : s.hasEngine = true) :
    (∀ supported, startListening supported s tf = (true, s, [])) ∧
    (tf' ≠ tf →
      startListening true s tf' =
        (true,
         { resetState s with
             hasEngine := true
             targetField := some tf'
             interimResults := ""
             finalResults := ""
             retryCount := 0
             isListening := true },
         [EngineAction.engineStop, EngineAction.engineStartScheduled])) := by
  constructor
  · intro supported
    have hcond : (s.isListening && decide (s.targetField = some tf)) = true := by
      rw [hL, hT, Bool.true_and]
      simp
    rw [startListening, hcond]
    simp
  · intro hne
    have hcond : (s.isListening && decide (s.targetField = some tf')) = false := by
      rw [hT]
      have : decide ((some tf : Option TargetField) = some tf') = false := by
        simp [Option.some.injEq]
        exact fun h => absurd h.symm hne
      rw [this, Bool.and_false]
    rw [startListening, hcond]
    simp [stopListening, resetState, hL, hE]

/-- C3 witness: the single-session property instantiated at a state
listening to the `title` field, with `step` as the different target. -/
theorem startListening_single_session_witness :
    (∀ supported,
      startListening supported ⟨true, true, some TargetField.title, "", "", 0⟩
        TargetField.title = (true, ⟨true, true, some TargetField.title, "", "", 0⟩, [])) ∧
    (TargetField.step ≠ TargetField.title →
      startListening true ⟨true, true, some TargetField.title, "", "", 0⟩
          TargetField.step =
        (true,
         { resetState ⟨true, true, some TargetField.title, "", "", 0⟩ with
             hasEngine := true
             targetField := some TargetField.step
             interimResults := ""
             finalResults := ""
             retryCount := 0
             isListening := true },
         [EngineAction.engineStop, EngineAction.engineStartScheduled])) :=
  startListening_single_session ⟨true, true, some TargetField.title, "", "", 0⟩
    TargetField.title TargetField.step rfl rfl rfl

/-- C4: for a nonempty keyword set, `fuzzyCommandMatch` succeeds exactly
when the ratio of matched keywords (those occurring, case-insensitively,
as substrings of the normalized input) to the total keyword count is
greater than or equal to the threshold — an inclusive boundary, so a
ratio strictly below the threshold fails; the dispatcher's default
threshold is `0.7`. -/
theorem fuzzyCommandMatch_score_iff (command : String) (keywords : List String)
    (t : ℚ) (hk : keywords ≠ []) :
    (fuzzyCommandMatch command keywords t = true ↔
      ((fuzzyMatchedKeywords command keywords).length : ℚ) / (keywords.length : ℚ) ≥ t) ∧
    defaultFuzzyThreshold = 7/10 := by
  refine ⟨?_, rfl⟩
  have hlen : keywords.length ≠ 0 := by
    simpa [List.length_eq_zero] using hk
  rw [fuzzyCommandMatch]
  simp only [hlen, if_false]
  exact decide_eq_true_iff

/-- C4 witness: the ratio characterization instantiated at a ten-keyword
set of which exactly seven occur in the input, the exact `0.7`
boundary. -/
theorem fuzzyCommandMatch_score_iff_witness :
    ((["alpha", "bravo", "charlie", "delta", "echo", "foxtrot", "golf",
        "zulu", "xray", "november"] : List String) ≠ []) ∧
    ((fuzzyCommandMatch "alpha bravo charlie delta echo foxtrot golf"
        ["alpha", "bravo", "charlie", "delta", "echo", "foxtrot", "golf",
         "zulu", "xray", "november"] (7/10) = true ↔
      ((fuzzyMatchedKeywords "alpha bravo charlie delta echo foxtrot golf"
          ["alpha", "bravo", "charlie", "delta", "echo", "foxtrot", "golf",
           "zulu", "xray", "november"]).length : ℚ) /
        ((["alpha", "bravo", "charlie", "delta", "echo", "foxtrot", "golf",
           "zulu", "xray", "november"] : List String).length : ℚ) ≥ 7/10) ∧
    defaultFuzzyThreshold = 7/10) :=
  ⟨by decide,
   fuzzyCommandMatch_score_iff "alpha bravo charlie delta echo foxtrot golf"
     ["alpha", "bravo", "charlie", "delta", "echo", "foxtrot", "golf",
      "zulu", "xray", "november"] (7/10) (by decide)⟩

/-- C1: whenever some registered command's primary pattern matches the
input, the dispatcher resolves in the exact phase: the first command (in
registration order) whose primary or alternative patterns structurally
match is invoked with its match data and its boolean result is returned,
every earlier command having failed both its primary and its alternative
patterns; the returned value is the exact phase's `some`, so the fuzzy
phase is never consulted. -/
theorem attemptCommandExecution_exact_first (cmds : List CommandDefinition)
    (s : String) (h : ∃ c ∈ cmds, (c.pattern s).isSome = true) :
    ∃ pre c rest m,
      cmds = pre ++ c :: rest ∧
      (∀ c₀ ∈ pre, exactMatchOf c₀ s = none) ∧
      exactMatchOf c s = some m ∧
      exactPhase cmds s = some (c.handler s (some m)) ∧
      attemptCommandExecution cmds s = c.handler s (some m) := by
  induction cmds with
  | nil => simp at h
  | cons hd tl ih =>
    cases hm : exactMatchOf hd s with
    | some m =>
      refine ⟨[], hd, tl, m, rfl, by simp, hm, ?_, ?_⟩
      · simp [exactPhase, hm]
      · simp [attemptCommandExecution, exactPhase, hm]
    | none =>
      obtain ⟨c0, hc0mem, hc0⟩ := h
      have hc0tl : c0 ∈ tl := by
        rcases List.mem_cons.mp hc0mem with heq0 | htl
        · exfalso
          rw [exactMatchOf] at hm
          cases hp : hd.pattern s with
          | some m2 =>
            rw [hp] at hm
            simp at hm
          | none =>
            rw [heq0, hp] at hc0
            simp at hc0
        · exact htl
      obtain ⟨pre, c, rest, m, heq, hpre, hm2, hph, _hatt⟩ := ih ⟨c0, hc0tl, hc0⟩
      have hphase : exactPhase (hd :: tl) s = exactPhase tl s := by
        simp [exactPhase, hm]
      refine ⟨hd :: pre, c, rest, m, by rw [heq, List.cons_append], ?_, hm2, ?_, ?_⟩
      · intro c₀ hc₀
        rcases List.mem_cons.mp hc₀ with heq₀ | h₀
        · rw [heq₀]
          exact hm
        · exact hpre c₀ h₀
      · rw [hphase]
        exact hph
      · rw [attemptCommandExecution, hphase, hph]

/-- C1 witness: the exact-first resolution instantiated at the
one-command demonstration registry and an input matched by its primary
pattern. -/
theorem attemptCommandExecution_exact_first_witness :
    (∃ c ∈ demoCommands, (c.pattern "add step pour water").isSome = true) ∧
    (∃ pre c rest m,
      demoCommands = pre ++ c :: rest ∧
      (∀ c₀ ∈ pre, exactMatchOf c₀ "add step pour water" = none) ∧
      exactMatchOf c "add step pour water" = some m ∧
      exactPhase demoCommands "add step pour water" =
        some (c.handler "add step pour water" (some m)) ∧
      attemptCommandExecution demoCommands "add step pour water" =
        c.handler "add step pour water" (some m)) :=
  ⟨⟨demoAddStep, by simp [demoCommands], by decide⟩,
   attemptCommandExecution_exact_first demoCommands "add step pour water"
     ⟨demoAddStep, by simp [demoCommands], by decide⟩⟩

/-- First-match position of `findIdx?` on a decomposed list. -/
lemma findIdx?_first {α : Type} (p : α → Bool) (pre : List α) (x : α)
    (post : List α) (hpre : ∀ y ∈ pre, p y = false) (hx : p x = true) :
    (pre ++ x :: post).findIdx? p = some pre.length := by
  induction pre with
  | nil => simp [hx]
  | cons a t ih =>
    have ha : p a = false := hpre a (List.mem_cons_self a t)
    simp only [List.cons_append, List.findIdx?_cons, ha, Bool.false_eq_true, if_false,
      List.findIdx?_succ]
    rw [ih (fun y hy => hpre y (List.mem_cons_of_mem a hy))]
    simp

/-- Lemma: `findIdx?` finds nothing when the predicate holds nowhere. -/
lemma findIdx?_none {α : Type} (p : α → Bool) (l : List α)
    (h : ∀ y ∈ l, p y = false) : l.findIdx? p = none := by
  induction l with
  | nil => simp
  | cons a t ih =>
    have ha : p a = false := h a (List.mem_cons_self a t)
    simp only [List.findIdx?_cons, ha, Bool.false_eq_true, if_false, List.findIdx?_succ]
    rw [ih (fun y hy => h y (List.mem_cons_of_mem a hy))]
    rfl

/-- C6: index-argument resolution of item-referencing material commands.
The literal token `last` (case-insensitively) resolves to the final index
`n - 1`; a token parsed by `parseInt` as the integer `k` resolves to the
0-based index `k - 1`; a resolved index outside `[0, n)` makes the removal
branch fail cleanly, returning `false` with the collection unchanged
instead of indexing out of bounds; any other token selects the first
material whose name contains it case-insensitively, and when no name
matches the branch fails cleanly; finally, `"remove material last"` over a
three-material collection removes the material at index 2 and succeeds. -/
theorem materialIndex_resolution :
    (∀ (mats : List Material) (s : String),
        s.data.map Char.toLower = "last".data →
        getMaterialIndex mats s = (mats.length : ℤ) - 1) ∧
    (∀ (mats : List Material) (s : String) (k : ℤ),
        s.data.map Char.toLower ≠ "last".data →
        parseIntJS s.data = some k →
        getMaterialIndex mats s = k - 1) ∧
    (∀ (mats : List Material) (arg : String),
        getMaterialIndex mats arg < 0 ∨ (mats.length : ℤ) ≤ getMaterialIndex mats arg →
        removeMaterialBranch mats arg = (false, mats)) ∧
    (∀ (mats : List Material) (s : String) (pre : List Material) (m : Material)
        (post : List Material),
        s.data.map Char.toLower ≠ "last".data →
        parseIntJS s.data = none →
        mats = pre ++ m :: post →
        (∀ m₀ ∈ pre,
          containsSub (s.data.map Char.toLower) (m₀.name.data.map Char.toLower) = false) →
        containsSub (s.data.map Char.toLower) (m.name.data.map Char.toLower) = true →
        getMaterialIndex mats s = (pre.length : ℤ)) ∧
    (∀ (mats : List Material) (s : String),
        s.data.map Char.toLower ≠ "last".data →
        parseIntJS s.data = none →
        (∀ m₀ ∈ mats,
          containsSub (s.data.map Char.toLower) (m₀.name.data.map Char.toLower) = false) →
        removeMaterialBranch mats s = (false, mats)) ∧
    processVoiceCommandRemoveSlice demoMaterials "remove material last" =
      some (true, [⟨1, "water"⟩, ⟨2, "salt"⟩]) := by
  have hbranch : ∀ (mats : List Material) (arg : String),
      getMaterialIndex mats arg < 0 ∨ (mats.length : ℤ) ≤ getMaterialIndex mats arg →
      removeMaterialBranch mats arg = (false, mats) := by
    intro mats arg hbad
    simp only [removeMaterialBranch]
    rw [dif_neg]
    omega
  refine ⟨?_, ?_, hbranch, ?_, ?_, ?_⟩
  · intro mats s hlast
    simp [getMaterialIndex, hlast]
  · intro mats s k hlast hp
    simp [getMaterialIndex, hlast, hp]
  · intro mats s pre m post hlast hp heq hpre hm
    subst heq
    rw [getMaterialIndex, if_neg hlast, hp]
    rw [findIdx?_first _ pre m post hpre hm]
  · intro mats s hlast hp hall
    have hidx : getMaterialIndex mats s = -1 := by
      rw [getMaterialIndex, if_neg hlast, hp, findIdx?_none _ _ hall]
    apply hbranch
    omega
  · decide

/-- C6 witness: each hypothesised conjunct instantiated on the
three-material demonstration collection (`last`, the numeral `2`, the
out-of-range numeral `7`, the name fragment `salt`, and the unmatched
fragment `copper`). -/
theorem materialIndex_resolution_witness :
    getMaterialIndex demoMaterials "last" = (demoMaterials.length : ℤ) - 1 ∧
    getMaterialIndex demoMaterials "2" = 2 - 1 ∧
    removeMaterialBranch demoMaterials "7" = (false, demoMaterials) ∧
    getMaterialIndex demoMaterials "salt" =
      (([⟨1, "water"⟩] : List Material).length : ℤ) ∧
    removeMaterialBranch demoMaterials "copper" = (false, demoMaterials) :=
  ⟨materialIndex_resolution.1 demoMaterials "last" (by decide),
   materialIndex_resolution.2.1 demoMaterials "2" 2 (by decide) (by decide),
   materialIndex_resolution.2.2.1 demoMaterials "7" (Or.inr (by decide)),
   materialIndex_resolution.2.2.2.1 demoMaterials "salt" [⟨1, "water"⟩] ⟨2, "salt"⟩
     [⟨3, "sugar"⟩] (by decide) (by decide) (by decide) (by decide) (by decide),
   materialIndex_resolution.2.2.2.2.1 demoMaterials "copper" (by decide) (by decide)
     (by decide)⟩

/-- A word character is not whitespace. -/
lemma word_not_ws (c : Char) (h : isWordChar c = true) : isWs c = false := by
  by_contra hc
  have hws : isWs c = true := by simpa using hc
  rw [isWs, Char.isWhitespace] at hws
  simp only [Bool.or_eq_true, decide_eq_true_eq] at hws
  obtain ((h1 | h1) | h1) | h1 := hws <;> (subst h1; exact absurd h (by decide))

/-- A word character is not a period. -/
lemma word_not_dot (c : Char) (h : isWordChar c = true) : c ≠ '.' := by
  intro h1
  subst h1
  exact absurd h (by decide)

/-- A nonempty separated list starts with its first letter. -/
lemma sepBy_head_ex (sep c : Char) (t : List Char) :
    ∃ r, sepBy sep (c :: t) = c :: r := by
  cases t with
  | nil => exact ⟨[], rfl⟩
  | cons d t' => exact ⟨sep :: sepBy sep (d :: t'), rfl⟩

/-- Members of a separated list are the separator or letters. -/
lemma mem_sepBy (sep : Char) (ls : List Char) (x : Char) (hx : x ∈ sepBy sep ls) :
    x = sep ∨ x ∈ ls := by
  induction ls with
  | nil => simp [sepBy] at hx
  | cons c t ih =>
    cases t with
    | nil =>
      simp [sepBy] at hx
      exact Or.inr (by simp [hx])
    | cons d t' =>
      rw [show sepBy sep (c :: d :: t') = c :: sep :: sepBy sep (d :: t') from rfl] at hx
      rcases List.mem_cons.mp hx with h1 | h1
      · exact Or.inr (by simp [h1])
      · rcases List.mem_cons.mp h1 with h2 | h2
        · exact Or.inl h2
        · rcases ih h2 with h3 | h3
          · exact Or.inl h3
          · exact Or.inr (List.mem_cons_of_mem c h3)

/-- The last element of a separated list is the last letter. -/
lemma sepBy_getLast? (sep c : Char) (t : List Char) :
    (sepBy sep (c :: t)).getLast? = (c :: t).getLast? := by
  induction t generalizing c with
  | nil => rfl
  | cons d t' ih =>
    obtain ⟨r, hr⟩ := sepBy_head_ex sep d t'
    rw [show sepBy sep (c :: d :: t') = c :: sep :: sepBy sep (d :: t') from rfl]
    rw [List.getLast?_cons_cons, hr, List.getLast?_cons_cons, ← hr, ih d,
      List.getLast?_cons_cons]

/-- Mapping a function that fixes every element is the identity. -/
lemma map_eq_self_of_fixes (f : Char → Char) (l : List Char)
    (h : ∀ c ∈ l, f c = c) : l.map f = l := by
  induction l with
  | nil => rfl
  | cons c t ih =>
    rw [List.map_cons, h c (List.mem_cons_self c t),
      ih (fun x hx => h x (List.mem_cons_of_mem c hx))]

/-- Lemma: `dropWhile` is the identity when the head fails the predicate. -/
lemma dropWhile_eq_self_of_head (p : Char → Bool) (l : List Char)
    (h : ∀ c, l.head? = some c → p c = false) : l.dropWhile p = l := by
  cases l with
  | nil => rfl
  | cons c t =>
    have := h c rfl
    simp [List.dropWhile_cons, this]

/-- Lemma: `trimL` is the identity on strings with no whitespace at either
end. -/
lemma trimL_eq_self (l : List Char)
    (hh : ∀ c, l.head? = some c → isWs c = false)
    (hl : ∀ c, l.getLast? = some c → isWs c = false) : trimL l = l := by
  have h1 : l.dropWhile isWs = l := dropWhile_eq_self_of_head _ l hh
  rw [trimL, h1]
  have h2 : l.reverse.dropWhile isWs = l.reverse := by
    apply dropWhile_eq_self_of_head
    intro c hc
    apply hl
    rwa [List.head?_reverse] at hc
  rw [h2, List.reverse_reverse]

/-- Lemma: `lowerTrim` fixes a separated list of lowercase word characters when
the separator is lowercase-stable and not whitespace-adjacent at the
ends. -/
lemma lowerTrim_sepBy (sep : Char) (ls : List Char) (c0 : Char) (t0 : List Char)
    (hls : ls = c0 :: t0)
    (hword : ∀ c ∈ ls, isWordChar c = true)
    (hlow : ∀ c ∈ ls, c.toLower = c)
    (hsep : sep.toLower = sep) : lowerTrim (sepBy sep ls) = sepBy sep ls := by
  subst hls
  rw [lowerTrim]
  rw [map_eq_self_of_fixes _ _ (fun c hc => by
    rcases mem_sepBy sep _ c hc with h1 | h1
    · rw [h1, hsep]
    · exact hlow c h1)]
  apply trimL_eq_self
  · intro c hc
    obtain ⟨r, hr⟩ := sepBy_head_ex sep c0 t0
    rw [hr] at hc
    simp only [List.head?_cons, Option.some.injEq] at hc
    subst hc
    exact word_not_ws _ (hword _ (List.mem_cons_self c0 t0))
  · intro c hc
    rw [sepBy_getLast? sep c0 t0] at hc
    exact word_not_ws _ (hword _ (List.mem_of_getLast?_eq_some hc))

/-- On a list not starting with whitespace, the after-period automaton
position behaves like a block start. -/
lemma acrRun_afterDot_eq_blockStart (l : List Char)
    (h : ∀ c, l.head? = some c → isWs c = false) :
    acrRun AcrPos.afterDot l = acrRun AcrPos.blockStart l := by
  cases l with
  | nil => rfl
  | cons c r =>
    have hc := h c rfl
    simp [acrRun, hc]

/-- Letters separated by periods match the acronym shape. -/
lemma acrRun_sepBy_dot (ls : List Char) (hword : ∀ c ∈ ls, isWordChar c = true) :
    acrRun AcrPos.blockStart (sepBy '.' ls) = true := by
  induction ls with
  | nil => rfl
  | cons c t ih =>
    cases t with
    | nil =>
      have hc := hword c (List.mem_cons_self _ _)
      simp [sepBy, acrRun, hc]
    | cons d t' =>
      have hc := hword c (List.mem_cons_self _ _)
      have hd : isWordChar d = true := hword d (by simp)
      obtain ⟨r, hr⟩ := sepBy_head_ex '.' d t'
      rw [show sepBy '.' (c :: d :: t') = c :: '.' :: sepBy '.' (d :: t') from rfl]
      rw [show acrRun AcrPos.blockStart (c :: '.' :: sepBy '.' (d :: t')) =
        (isWordChar c && acrRun AcrPos.afterWord ('.' :: sepBy '.' (d :: t'))) from rfl]
      rw [hc, Bool.true_and]
      rw [show acrRun AcrPos.afterWord ('.' :: sepBy '.' (d :: t')) =
        acrRun AcrPos.afterDot (sepBy '.' (d :: t')) from by simp [acrRun]]
      rw [acrRun_afterDot_eq_blockStart _ (fun c0 hc0 => by
        rw [hr] at hc0
        simp only [List.head?_cons, Option.some.injEq] at hc0
        subst hc0
        exact word_not_ws _ hd)]
      exact ih (fun x hx => hword x (List.mem_cons_of_mem c hx))

/-- Letters separated by single spaces match the acronym shape. -/
lemma acrRun_sepBy_space (ls : List Char) (hword : ∀ c ∈ ls, isWordChar c = true) :
    acrRun AcrPos.blockStart (sepBy ' ' ls) = true := by
  induction ls with
  | nil => rfl
  | cons c t ih =>
    cases t with
    | nil =>
      have hc := hword c (List.mem_cons_self _ _)
      simp [sepBy, acrRun, hc]
    | cons d t' =>
      have hc := hword c (List.mem_cons_self _ _)
      rw [show sepBy ' ' (c :: d :: t') = c :: ' ' :: sepBy ' ' (d :: t') from rfl]
      rw [show acrRun AcrPos.blockStart (c :: ' ' :: sepBy ' ' (d :: t')) =
        (isWordChar c && acrRun AcrPos.afterWord (' ' :: sepBy ' ' (d :: t'))) from rfl]
      rw [hc, Bool.true_and]
      rw [show acrRun AcrPos.afterWord (' ' :: sepBy ' ' (d :: t')) =
        acrRun AcrPos.blockStart (sepBy ' ' (d :: t')) from by simp [acrRun, isWs]]
      exact ih (fun x hx => hword x (List.mem_cons_of_mem c hx))

/-- Mapping `dotToSpace` turns period separators into space separators on
word-character letters. -/
lemma map_dotToSpace_sepBy_dot (ls : List Char)
    (hword : ∀ c ∈ ls, isWordChar c = true) :
    (sepBy '.' ls).map dotToSpace = sepBy ' ' ls := by
  induction ls with
  | nil => rfl
  | cons c t ih =>
    have hc : dotToSpace c = c := by
      rw [dotToSpace, if_neg (word_not_dot c (hword c (List.mem_cons_self c t)))]
    cases t with
    | nil => simp [sepBy, hc]
    | cons d t' =>
      rw [show sepBy '.' (c :: d :: t') = c :: '.' :: sepBy '.' (d :: t') from rfl]
      rw [List.map_cons, List.map_cons, hc,
        show dotToSpace '.' = ' ' from rfl,
        ih (fun x hx => hword x (List.mem_cons_of_mem c hx))]
      rfl

/-- Mapping `dotToSpace` fixes any list without periods. -/
lemma map_dotToSpace_eq_self (l : List Char) (h : ∀ c ∈ l, c ≠ '.') :
    l.map dotToSpace = l :=
  map_eq_self_of_fixes _ _ (fun c hc => by rw [dotToSpace, if_neg (h c hc)])

/-- Splitting on whitespace after a space separator prepends an empty-run
boundary token. -/
lemma splitWs_space_cons (l : List Char) (c : Char) (r : List Char)
    (hl : l = c :: r) (hc : isWs c = false) :
    splitWs (' ' :: l) = [] :: splitWs l := by
  subst hl
  simp [splitWs, isWs, show c.isWhitespace = false from hc]

/-- Splitting a space-separated list of non-whitespace letters recovers
the letters as singleton tokens. -/
lemma splitWs_sepBy_space (ls : List Char)
    (hword : ∀ c ∈ ls, isWordChar c = true) :
    ls ≠ [] → splitWs (sepBy ' ' ls) = ls.map (fun c => [c]) := by
  induction ls with
  | nil => intro h; exact absurd rfl h
  | cons c t ih =>
    intro _
    have hwc : isWs c = false := word_not_ws c (hword c (List.mem_cons_self c t))
    cases t with
    | nil =>
      show splitWs [c] = [[c]]
      simp [splitWs, hwc]
    | cons d t' =>
      have hwd : isWs d = false := word_not_ws d (hword d (by simp))
      obtain ⟨r, hr⟩ := sepBy_head_ex ' ' d t'
      have hmid : splitWs (' ' :: sepBy ' ' (d :: t')) = [] :: splitWs (sepBy ' ' (d :: t')) :=
        splitWs_space_cons _ d r hr hwd
      have hih := ih (fun x hx => hword x (List.mem_cons_of_mem c hx)) (by simp)
      rw [show sepBy ' ' (c :: d :: t') = c :: ' ' :: sepBy ' ' (d :: t') from rfl]
      rw [show splitWs (c :: ' ' :: sepBy ' ' (d :: t')) =
        (match splitWs (' ' :: sepBy ' ' (d :: t')) with
         | [] => [[c]]
         | t0 :: ts => (c :: t0) :: ts) from by simp [splitWs, hwc]]
      rw [hmid, hih]
      rfl

/-- Association lookup misses every key of a different length. -/
lemma lookupL_none_of_length (m : List (List Char × List Char)) (t : List Char)
    (h : ∀ e ∈ m, e.1.length ≠ t.length) : lookupL m t = none := by
  induction m with
  | nil => rfl
  | cons e r ih =>
    rw [lookupL, if_neg (fun heq : t = e.1 =>
      (h e (List.mem_cons_self e r)) (by rw [heq]))]
    exact ih (fun x hx => h x (List.mem_cons_of_mem e hx))

/-- The phonetic table has no single-letter keys, so singleton tokens pass
through unchanged. -/
lemma phoneticFix_single (c : Char) : phoneticFix [c] = [c] := by
  have h1 : ∀ e ∈ phoneticMap, e.1.length ≠ 1 := by decide
  rw [phoneticFix, lookupL_none_of_length _ _ (fun e he => by simpa using h1 e he)]

/-- Joining singleton tokens with spaces is space separation. -/
lemma joinSpace_singletons (ls : List Char) :
    joinSpace (ls.map (fun c => [c])) = sepBy ' ' ls := by
  induction ls with
  | nil => rfl
  | cons c t ih =>
    cases t with
    | nil => rfl
    | cons d t' =>
      show joinSpace ([c] :: (d :: t').map (fun c => [c])) = c :: ' ' :: sepBy ' ' (d :: t')
      rw [show (d :: t').map (fun c => [c]) = [d] :: t'.map (fun c => [c]) from rfl]
      rw [show joinSpace ([c] :: [d] :: t'.map (fun c => [c])) =
        [c] ++ ' ' :: joinSpace ([d] :: t'.map (fun c => [c])) from rfl]
      rw [show ([d] :: t'.map (fun c => [c])) = (d :: t').map (fun c => [c]) from rfl, ih]
      rfl

/-- The acronym pass maps a space-separated word-character spelling to
itself. -/
lemma acronymPass_sepBy_space (ls : List Char)
    (hword : ∀ c ∈ ls, isWordChar c = true) (hne : ls ≠ []) :
    acronymPass (sepBy ' ' ls) = sepBy ' ' ls := by
  rw [acronymPass]
  rw [map_dotToSpace_eq_self _ (fun c hc => by
    rcases mem_sepBy ' ' ls c hc with h1 | h1
    · rw [h1]; decide
    · exact word_not_dot c (hword c h1))]
  rw [splitWs_sepBy_space ls hword hne]
  rw [List.map_map]
  have hcong : List.map (phoneticFix ∘ fun c => [c]) ls = List.map (fun c => [c]) ls :=
    List.map_congr_left (fun c _ => phoneticFix_single c)
  rw [hcong]
  exact joinSpace_singletons ls

/-- The acronym pass rewrites a period-separated word-character spelling
to its space-separated form. -/
lemma acronymPass_sepBy_dot (ls : List Char)
    (hword : ∀ c ∈ ls, isWordChar c = true) (hne : ls ≠ []) :
    acronymPass (sepBy '.' ls) = sepBy ' ' ls := by
  rw [acronymPass, map_dotToSpace_sepBy_dot ls hword, splitWs_sepBy_space ls hword hne,
    List.map_map]
  have hcong : List.map (phoneticFix ∘ fun c => [c]) ls = List.map (fun c => [c]) ls :=
    List.map_congr_left (fun c _ => phoneticFix_single c)
  rw [hcong]
  exact joinSpace_singletons ls

/-- C7: on whole-utterance acronym spellings the separator does not
matter: for any nonempty list of lowercase word-character letters, the
period-separated and space-separated spellings both match the acronym
shape and normalize to the same string; and the acronym pass fires only
when the entire (lowercased, trimmed) utterance matches the shape — when
it does not, `normalizeCommand` is exactly the mishearing pass on the
lowercased trimmed input, with no acronym rewriting. -/
theorem acronym_separator_invariance :
    (∀ ls : List Char, ls ≠ [] →
      (∀ c ∈ ls, isWordChar c = true ∧ c.toLower = c) →
      isAcronymSpelling (sepBy '.' ls) = true ∧
      isAcronymSpelling (sepBy ' ' ls) = true ∧
      normalizeCommand (String.mk (sepBy '.' ls)) =
        normalizeCommand (String.mk (sepBy ' ' ls))) ∧
    (∀ s : String, isAcronymSpelling (lowerTrim s.data) = false →
      normalizeCommand s = String.mk (applyMishearings (lowerTrim s.data))) := by
  constructor
  · intro ls hne hc
    have hword : ∀ c ∈ ls, isWordChar c = true := fun c h => (hc c h).1
    have hlow : ∀ c ∈ ls, c.toLower = c := fun c h => (hc c h).2
    obtain ⟨c0, t0, rfl⟩ : ∃ c0 t0, ls = c0 :: t0 := by
      cases ls with
      | nil => exact absurd rfl hne
      | cons a b => exact ⟨a, b, rfl⟩
    have hshape_dot : isAcronymSpelling (sepBy '.' (c0 :: t0)) = true := by
      rw [isAcronymSpelling, acrRun_sepBy_dot _ hword, Bool.and_true]
      obtain ⟨r, hr⟩ := sepBy_head_ex '.' c0 t0
      rw [hr]
      rfl
    have hshape_space : isAcronymSpelling (sepBy ' ' (c0 :: t0)) = true := by
      rw [isAcronymSpelling, acrRun_sepBy_space _ hword, Bool.and_true]
      obtain ⟨r, hr⟩ := sepBy_head_ex ' ' c0 t0
      rw [hr]
      rfl
    refine ⟨hshape_dot, hshape_space, ?_⟩
    have key : normalizeCmdL (sepBy '.' (c0 :: t0)) = normalizeCmdL (sepBy ' ' (c0 :: t0)) := by
      rw [normalizeCmdL, normalizeCmdL]
      rw [show lowerTrim (sepBy '.' (c0 :: t0)) = sepBy '.' (c0 :: t0) from
        lowerTrim_sepBy '.' _ c0 t0 rfl hword hlow (by decide)]
      rw [show lowerTrim (sepBy ' ' (c0 :: t0)) = sepBy ' ' (c0 :: t0) from
        lowerTrim_sepBy ' ' _ c0 t0 rfl hword hlow (by decide)]
      rw [acronymStage, acronymStage, if_pos hshape_dot, if_pos hshape_space]
      rw [acronymPass_sepBy_dot _ hword hne, acronymPass_sepBy_space _ hword hne]
    exact congrArg String.mk key
  · intro s hsh
    have key : normalizeCmdL s.data = applyMishearings (lowerTrim s.data) := by
      rw [normalizeCmdL, acronymStage, if_neg (by rw [hsh]; exact Bool.false_ne_true)]
    exact congrArg String.mk key

/-- C7 witness: the invariance instantiated at the letters `s`, `o`, `p`
(so `"s.o.p"` and `"s o p"`), and the shape restriction at the
non-acronym input `"hello?"`. -/
theorem acronym_separator_invariance_witness :
    (isAcronymSpelling (sepBy '.' ['s', 'o', 'p']) = true ∧
     isAcronymSpelling (sepBy ' ' ['s', 'o', 'p']) = true ∧
     normalizeCommand (String.mk (sepBy '.' ['s', 'o', 'p'])) =
       normalizeCommand (String.mk (sepBy ' ' ['s', 'o', 'p']))) ∧
    normalizeCommand "hello?" = String.mk (applyMishearings (lowerTrim "hello?".data)) :=
  ⟨acronym_separator_invariance.1 ['s', 'o', 'p'] (by decide) (by decide),
   acronym_separator_invariance.2 "hello?" (by decide)⟩

/-- C8 counterexample: `normalizeCommand` is not idempotent on every
string.  On `"a."` the acronym pass leaves a trailing space (the JS
`split(/\s+/)` yields a trailing empty token), which the second
application trims away: `normalize "a." = "a "` but
`normalize (normalize "a.") = "a"`. -/
theorem normalizeCommand_not_idempotent :
    normalizeCommand "a." = "a " ∧
    normalizeCommand (normalizeCommand "a.") = "a" ∧
    normalizeCommand (normalizeCommand "a.") ≠ normalizeCommand "a." := by
  refine ⟨by decide, by decide, by decide⟩

/-- The mishearing pass fixes a string containing none of the misheard
phrases. -/
lemma foldl_applyMishear_id (entries : List (List Char × List Char)) (l : List Char)
    (h : ∀ e ∈ entries, containsSub e.1 l = false) :
    entries.foldl applyMishear l = l := by
  induction entries with
  | nil => rfl
  | cons e r ih =>
    have he : applyMishear l e = l := by
      rw [applyMishear, if_neg]
      rw [h e (List.mem_cons_self e r)]
      exact Bool.false_ne_true
    rw [List.foldl_cons, he]
    exact ih (fun x hx => h x (List.mem_cons_of_mem e hx))

/-- C8 (amended): `normalizeCommand` is idempotent on already-canonical
strings (fixed points of the normalizer), though not on arbitrary strings;
it is a total Lean function (hence deterministic and side-effect-free,
never throwing), and input matched by no rule — not of the acronym shape
and containing no misheard phrase — passes through unchanged after
lowercasing and trimming. -/
theorem normalizeCommand_idempotent_on_canonical :
    (∀ x : String, normalizeCommand x = x →
      normalizeCommand (normalizeCommand x) = normalizeCommand x) ∧
    (∀ x : String,
      isAcronymSpelling (lowerTrim x.data) = false →
      (∀ e ∈ mishearingMap, containsSub e.1 (lowerTrim x.data) = false) →
      normalizeCommand x = String.mk (lowerTrim x.data)) := by
  constructor
  · intro x h
    rw [h]
    exact h
  · intro x hsh hkeys
    have key : normalizeCmdL x.data = lowerTrim x.data := by
      rw [normalizeCmdL, acronymStage, if_neg (by rw [hsh]; exact Bool.false_ne_true)]
      exact foldl_applyMishear_id mishearingMap _ hkeys
    exact congrArg String.mk key

/-- C8 witness: idempotence at the canonical string `"add step"` and
pass-through at the rule-free input `"hello?"`. -/
theorem normalizeCommand_idempotent_on_canonical_witness :
    normalizeCommand "add step" = "add step" ∧
    normalizeCommand (normalizeCommand "add step") = normalizeCommand "add step" ∧
    normalizeCommand "hello?" = String.mk (lowerTrim "hello?".data) :=
  ⟨by decide,
   normalizeCommand_idempotent_on_canonical.1 "add step" (by decide),
   normalizeCommand_idempotent_on_canonical.2 "hello?" (by decide) (by decide)⟩

/-- The boolean prefix test corresponds to an append decomposition. -/
lemma isPrefixB_iff (a b : List Char) : isPrefixB a b = true ↔ ∃ r, b = a ++ r := by
  induction a generalizing b with
  | nil =>
    simp [isPrefixB]
  | cons x as ih =>
    cases b with
    | nil => simp [isPrefixB]
    | cons y bs =>
      rw [show isPrefixB (x :: as) (y :: bs) = (x == y && isPrefixB as bs) from rfl]
      rw [Bool.and_eq_true, beq_iff_eq, ih]
      constructor
      · rintro ⟨rfl, r, rfl⟩
        exact ⟨r, rfl⟩
      · rintro ⟨r, hr⟩
        rw [List.cons_append] at hr
        injection hr with h1 h2
        exact ⟨h1.symm, r, h2⟩

/-- The substring test corresponds to an occurrence decomposition. -/
lemma containsSub_iff (p l : List Char) :
    containsSub p l = true ↔ ∃ u v, l = u ++ p ++ v := by
  induction l with
  | nil =>
    rw [show containsSub p [] = isPrefixB p [] from rfl, isPrefixB_iff]
    constructor
    · rintro ⟨r, hr⟩
      exact ⟨[], r, by simpa using hr⟩
    · rintro ⟨u, v, huv⟩
      have hu : u = [] ∧ p ++ v = [] := by
        have := huv.symm
        rw [List.append_assoc] at this
        exact List.append_eq_nil.mp this
      exact ⟨v, by rw [← hu.2]⟩
  | cons c rest ih =>
    rw [show containsSub p (c :: rest) = (isPrefixB p (c :: rest) || containsSub p rest)
      from rfl]
    rw [Bool.or_eq_true, isPrefixB_iff, ih]
    constructor
    · rintro (⟨r, hr⟩ | ⟨u, v, huv⟩)
      · exact ⟨[], r, by simpa using hr⟩
      · exact ⟨c :: u, v, by rw [huv]; rfl⟩
    · rintro ⟨u, v, huv⟩
      cases u with
      | nil => exact Or.inl ⟨v, by simpa using huv⟩
      | cons u0 u' =>
        rw [List.cons_append, List.cons_append] at huv
        injection huv with h1 h2
        exact Or.inr ⟨u', v, h2⟩

/-- Two prefixes of a common list are prefix-comparable. -/
lemma prefix_total (a b l : List Char) (ha : ∃ r, l = a ++ r) (hb : ∃ s, l = b ++ s) :
    (∃ r, b = a ++ r) ∨ (∃ s, a = b ++ s) := by
  induction a generalizing b l with
  | nil => exact Or.inl ⟨b, rfl⟩
  | cons x as ih =>
    cases b with
    | nil => exact Or.inr ⟨x :: as, rfl⟩
    | cons y bs =>
      obtain ⟨r, hr⟩ := ha
      obtain ⟨s, hs⟩ := hb
      rw [hr, List.cons_append] at hs
      injection hs with h1 h2
      rcases ih bs (as ++ r) ⟨r, rfl⟩ ⟨s, h2⟩ with ⟨r2, h3⟩ | ⟨s2, h3⟩
      · exact Or.inl ⟨r2, by rw [h1, h3]; rfl⟩
      · exact Or.inr ⟨s2, by rw [← h1, h3]; rfl⟩

/-- Splitting never yields an empty token list. -/
lemma splitWs_ne_nil (l : List Char) : splitWs l ≠ [] := by
  induction l with
  | nil => simp [splitWs]
  | cons c r ih =>
    simp only [splitWs]
    split
    · cases r with
      | nil => simp
      | cons d r' =>
        by_cases hd : isWs d
        · simpa [hd] using ih
        · simp [hd]
    · cases hs : splitWs r with
      | nil => simp
      | cons t ts => simp

/-- Unfolding of `replaceFirst` when the pattern matches at the head. -/
lemma replaceFirst_cons_of_prefixB (k v : List Char) (c : Char) (rest : List Char)
    (h : isPrefixB k (c :: rest) = true) :
    replaceFirst k v (c :: rest) = v ++ (c :: rest).drop k.length := by
  simp [replaceFirst, h]

/-- Unfolding of `replaceFirst` when the pattern does not match at the
head. -/
lemma replaceFirst_cons_of_not_prefixB (k v : List Char) (c : Char) (rest : List Char)
    (h : isPrefixB k (c :: rest) = false) :
    replaceFirst k v (c :: rest) = c :: replaceFirst k v rest := by
  simp [replaceFirst, h]

/-- An overlap witness through a suffix of the replaced pattern. -/
lemma overlapB_of_left (k P : List Char) (m : ℕ) (hm : m < k.length)
    (h : isPrefixB (k.drop m) P = true ∨ isPrefixB P (k.drop m) = true) :
    overlapB k P = true := by
  rw [overlapB, Bool.or_eq_true]
  left
  rw [List.any_eq_true]
  refine ⟨m, List.mem_range.mpr hm, ?_⟩
  rcases h with h | h <;> simp [h]

/-- An overlap witness through a suffix of the preserved pattern. -/
lemma overlapB_of_right (k P : List Char) (t : ℕ) (ht : t < P.length)
    (h : isPrefixB (P.drop t) k = true ∨ isPrefixB k (P.drop t) = true) :
    overlapB k P = true := by
  rw [overlapB, Bool.or_eq_true]
  right
  rw [List.any_eq_true]
  refine ⟨t, List.mem_range.mpr ht, ?_⟩
  rcases h with h | h <;> simp [h]

/-- When `k` cannot overlap `P`, replacing the first `k`-occurrence in a
string starting with a nonempty suffix `Q` of `P` keeps `Q` in front: the
first `k`-occurrence, if any, lies wholly behind it. -/
lemma replaceFirst_keeps_tail (k v P : List Char) (hno : overlapB k P = false) :
    ∀ (l Q w : List Char), Q ≠ [] → P = w ++ Q → (∃ r, l = Q ++ r) →
      ∃ r, replaceFirst k v l = Q ++ r := by
  intro l
  induction l with
  | nil =>
    rintro Q w hQ hPw ⟨r, hr⟩
    cases Q with
    | nil => exact absurd rfl hQ
    | cons q Q' => simp at hr
  | cons c rest ih =>
    rintro Q w hQ hPw ⟨r, hr⟩
    have hlt : w.length < P.length := by
      rw [hPw, List.length_append]
      cases Q with
      | nil => exact absurd rfl hQ
      | cons _ _ => simp
    have hdropQ : P.drop w.length = Q := by
      rw [hPw]
      exact List.drop_left w Q
    have hknp : isPrefixB k (c :: rest) = false := by
      by_contra hx
      have hkp : isPrefixB k (c :: rest) = true := by simpa using hx
      obtain ⟨d, hd⟩ := (isPrefixB_iff _ _).mp hkp
      rcases prefix_total k Q (c :: rest) ⟨d, hd⟩ ⟨r, hr⟩ with ⟨r2, h2⟩ | ⟨s2, h2⟩
      · have hov : overlapB k P = true :=
          overlapB_of_right k P w.length hlt
            (Or.inr (by rw [hdropQ]; exact (isPrefixB_iff _ _).mpr ⟨r2, h2⟩))
        rw [hov] at hno
        exact absurd hno (by decide)
      · have hov : overlapB k P = true :=
          overlapB_of_right k P w.length hlt
            (Or.inl (by rw [hdropQ]; exact (isPrefixB_iff _ _).mpr ⟨s2, h2⟩))
        rw [hov] at hno
        exact absurd hno (by decide)
    rw [replaceFirst_cons_of_not_prefixB k v c rest hknp]
    cases Q with
    | nil => exact absurd rfl hQ
    | cons q Q' =>
      rw [List.cons_append] at hr
      injection hr with h1 h2
      cases Q' with
      | nil =>
        refine ⟨replaceFirst k v rest, ?_⟩
        rw [h1]
        rfl
      | cons q2 Q'' =>
        have hPw' : P = (w ++ [q]) ++ q2 :: Q'' := by
          rw [hPw, List.append_assoc]
          rfl
        obtain ⟨r3, h3⟩ := ih (q2 :: Q'') (w ++ [q]) (by simp) hPw' ⟨r, h2⟩
        refine ⟨r3, ?_⟩
        rw [h1, List.cons_append, h3]

/-- When `k` cannot overlap `P`, `replaceFirst k v` preserves the
presence of `P` as a substring. -/
lemma replaceFirst_keeps_sub (k v P : List Char) (hP : P ≠ [])
    (hno : overlapB k P = false) :
    ∀ l, (∃ u w, l = u ++ P ++ w) → ∃ u w, replaceFirst k v l = u ++ P ++ w := by
  intro l
  induction l with
  | nil =>
    rintro ⟨u, w, hl⟩
    exfalso
    rw [List.append_assoc] at hl
    obtain ⟨h1, h2⟩ := List.append_eq_nil.mp hl.symm
    exact hP (List.append_eq_nil.mp h2).1
  | cons c rest ih =>
    rintro ⟨u, w, hl⟩
    by_cases hkp : isPrefixB k (c :: rest) = true
    · obtain ⟨d, hd⟩ := (isPrefixB_iff _ _).mp hkp
      have hrf : replaceFirst k v (c :: rest) = v ++ d := by
        rw [replaceFirst_cons_of_prefixB k v c rest hkp, hd, List.drop_left]
      have heq : u ++ (P ++ w) = k ++ d := by
        rw [← List.append_assoc, ← hl, hd]
      rcases List.append_eq_append_iff.mp heq with ⟨m, hm1, hm2⟩ | ⟨m, hm1, hm2⟩
      · cases m with
        | nil =>
          refine ⟨v, w, ?_⟩
          rw [hrf, show d = P ++ w from by simpa using hm2.symm, List.append_assoc]
        | cons m0 m' =>
          exfalso
          have hmlt : u.length < k.length := by
            rw [hm1, List.length_append]
            simp
          have hdropm : k.drop u.length = m0 :: m' := by
            rw [hm1, List.drop_left]
          rcases prefix_total P (m0 :: m') (P ++ w) ⟨w, rfl⟩ ⟨d, hm2⟩ with
            ⟨r2, h2⟩ | ⟨s2, h2⟩
          · have hov : overlapB k P = true :=
              overlapB_of_left k P u.length hmlt
                (Or.inr (by rw [hdropm]; exact (isPrefixB_iff _ _).mpr ⟨r2, h2⟩))
            rw [hov] at hno
            exact absurd hno (by decide)
          · have hov : overlapB k P = true :=
              overlapB_of_left k P u.length hmlt
                (Or.inl (by rw [hdropm]; exact (isPrefixB_iff _ _).mpr ⟨s2, h2⟩))
            rw [hov] at hno
            exact absurd hno (by decide)
      · refine ⟨v ++ m, w, ?_⟩
        rw [hrf, hm2]
        simp [List.append_assoc]
    · have hknp : isPrefixB k (c :: rest) = false := by simpa using hkp
      cases u with
      | nil =>
        obtain ⟨r, hr⟩ := replaceFirst_keeps_tail k v P hno (c :: rest) P [] hP
          (List.nil_append P).symm ⟨w, by simpa using hl⟩
        exact ⟨[], r, by simpa using hr⟩
      | cons u0 u' =>
        have hl' : rest = u' ++ P ++ w := by
          have h := congrArg List.tail hl
          simpa using h
        obtain ⟨u2, w2, h2⟩ := ih ⟨u', w, hl'⟩
        refine ⟨c :: u2, w2, ?_⟩
        rw [replaceFirst_cons_of_not_prefixB k v c rest hknp, h2]
        simp [List.cons_append, List.append_assoc]

/-- A non-overlapping table entry preserves the presence of `P`. -/
lemma applyMishear_keeps_sub (P : List Char) (hP : P ≠ [])
    (e : List Char × List Char) (hno : overlapB e.1 P = false) (l : List Char)
    (h : ∃ u w, l = u ++ P ++ w) : ∃ u w, applyMishear l e = u ++ P ++ w := by
  rw [applyMishear]
  by_cases hc : containsSub e.1 l = true
  · rw [if_pos hc]
    exact replaceFirst_keeps_sub e.1 e.2 P hP hno l h
  · rw [if_neg hc]
    exact h

/-- A fold over non-overlapping table entries preserves the presence of
`P`. -/
lemma foldl_applyMishear_keeps_sub (P : List Char) (hP : P ≠ [])
    (entries : List (List Char × List Char))
    (hall : ∀ e ∈ entries, overlapB e.1 P = false) :
    ∀ l, (∃ u w, l = u ++ P ++ w) →
      ∃ u w, entries.foldl applyMishear l = u ++ P ++ w := by
  induction entries with
  | nil => intro l h; exact h
  | cons e r ih =>
    intro l h
    rw [List.foldl_cons]
    exact ih (fun x hx => hall x (List.mem_cons_of_mem e hx)) _
      (applyMishear_keeps_sub P hP e (hall e (List.mem_cons_self e r)) l h)

/-- Unfolding of `splitWs` at a non-whitespace head. -/
lemma splitWs_cons_not_ws (c : Char) (r : List Char) (hc : isWs c = false) :
    splitWs (c :: r) =
      match splitWs r with
      | [] => [[c]]
      | t :: ts => (c :: t) :: ts := by
  simp [splitWs, hc]

/-- Unfolding of `splitWs` at a whitespace head with more input. -/
lemma splitWs_cons_ws (c d : Char) (r : List Char) (hc : isWs c = true) :
    splitWs (c :: d :: r) =
      if isWs d then splitWs (d :: r) else [] :: splitWs (d :: r) := by
  simp [splitWs, hc]

/-- The first token of a split absorbs a leading non-whitespace run. -/
lemma splitWs_head (Q rest2 : List Char) (hQ : ∀ c ∈ Q, isWs c = false) :
    ∃ t ts r, splitWs (Q ++ rest2) = t :: ts ∧ t = Q ++ r := by
  induction Q with
  | nil =>
    cases hs : splitWs rest2 with
    | nil => exact absurd hs (splitWs_ne_nil rest2)
    | cons t ts => exact ⟨t, ts, t, by simpa using hs, rfl⟩
  | cons q Q' ih =>
    have hq : isWs q = false := hQ q (List.mem_cons_self q Q')
    obtain ⟨t, ts, r, h1, h2⟩ := ih (fun c hc => hQ c (List.mem_cons_of_mem q hc))
    refine ⟨q :: t, ts, r, ?_, by rw [h2]; rfl⟩
    rw [List.cons_append, splitWs_cons_not_ws q (Q' ++ rest2) hq, h1]

/-- An occurrence of a whitespace-free pattern survives splitting: some
token contains it. -/
lemma splitWs_token_of_sub (P : List Char) (hP : P ≠ [])
    (hws : ∀ c ∈ P, isWs c = false) :
    ∀ l, (∃ u w, l = u ++ P ++ w) →
      ∃ tok ∈ splitWs l, ∃ u w, tok = u ++ P ++ w := by
  intro l
  induction l with
  | nil =>
    rintro ⟨u, w, hl⟩
    exfalso
    rw [List.append_assoc] at hl
    obtain ⟨h1, h2⟩ := List.append_eq_nil.mp hl.symm
    exact hP (List.append_eq_nil.mp h2).1
  | cons c rest ih =>
    rintro ⟨u, w, hl⟩
    cases u with
    | nil =>
      have hl' : c :: rest = P ++ w := by simpa using hl
      obtain ⟨t, ts, r, h1, h2⟩ := splitWs_head P w hws
      rw [← hl'] at h1
      exact ⟨t, by rw [h1]; exact List.mem_cons_self t ts, [], r, by rw [h2]; rfl⟩
    | cons u0 u' =>
      have hl' : rest = u' ++ P ++ w := by
        have h := congrArg List.tail hl
        simpa using h
      obtain ⟨tok, htokmem, hocc⟩ := ih ⟨u', w, hl'⟩
      by_cases hc : isWs c = true
      · cases hrest : rest with
        | nil =>
          exfalso
          rw [hrest] at hl'
          obtain ⟨g1, g2⟩ := List.append_eq_nil.mp (by rw [List.append_assoc] at hl'; exact hl'.symm)
          exact hP (List.append_eq_nil.mp g2).1
        | cons d r' =>
          subst hrest
          by_cases hd : isWs d
          · rw [splitWs_cons_ws c d r' hc, if_pos hd]
            exact ⟨tok, htokmem, hocc⟩
          · rw [splitWs_cons_ws c d r' hc, if_neg hd]
            exact ⟨tok, List.mem_cons_of_mem _ htokmem, hocc⟩
      · have hc' : isWs c = false := by simpa using hc
        rw [splitWs_cons_not_ws c rest hc']
        cases hs : splitWs rest with
        | nil => exact absurd hs (splitWs_ne_nil rest)
        | cons t ts =>
          rw [hs] at htokmem
          rcases List.mem_cons.mp htokmem with heq | htok2
          · obtain ⟨u2, w2, h2⟩ := hocc
            refine ⟨c :: t, List.mem_cons_self _ _, c :: u2, w2, ?_⟩
            rw [← heq, h2]
            rfl
          · exact ⟨tok, List.mem_cons_of_mem _ htok2, hocc⟩

/-- An occurrence inside any token survives joining with spaces. -/
lemma joinSpace_keeps_sub (P : List Char) :
    ∀ (toks : List (List Char)) (tok : List Char), tok ∈ toks →
      (∃ u w, tok = u ++ P ++ w) → ∃ u w, joinSpace toks = u ++ P ++ w := by
  intro toks
  induction toks with
  | nil =>
    intro tok h
    simp at h
  | cons t rest ih =>
    intro tok htok hocc
    rcases List.mem_cons.mp htok with heq | hmem
    · obtain ⟨u, w, hw⟩ := hocc
      cases rest with
      | nil => exact ⟨u, w, by rw [show joinSpace [t] = t from rfl, ← heq, hw]⟩
      | cons r0 rest' =>
        refine ⟨u, w ++ ' ' :: joinSpace (r0 :: rest'), ?_⟩
        rw [show joinSpace (t :: r0 :: rest') = t ++ ' ' :: joinSpace (r0 :: rest')
          from rfl, ← heq, hw]
        simp [List.append_assoc]
    · cases rest with
      | nil => simp at hmem
      | cons r0 rest' =>
        obtain ⟨u2, w2, h2⟩ := ih tok hmem hocc
        refine ⟨(t ++ [' ']) ++ u2, w2, ?_⟩
        rw [show joinSpace (t :: r0 :: rest') = t ++ ' ' :: joinSpace (r0 :: rest')
          from rfl, h2]
        simp [List.append_assoc]

/-- The phonetic table has no keys of length four or more. -/
lemma phoneticFix_long (tok : List Char) (h4 : 4 ≤ tok.length) :
    phoneticFix tok = tok := by
  have h1 : ∀ e ∈ phoneticMap, e.1.length ≤ 3 := by decide
  rw [phoneticFix, lookupL_none_of_length _ _ (fun e he => by
    have := h1 e he
    omega)]

/-- The acronym pass preserves any occurrence of a long pattern free of
whitespace and periods: the pattern sits inside a single token, which is
too long to be a phonetic key. -/
lemma acronymPass_keeps_sub (P : List Char) (hP : P ≠ [])
    (hws : ∀ c ∈ P, isWs c = false) (hdot : ∀ c ∈ P, c ≠ '.')
    (hlen : 4 ≤ P.length) (l : List Char)
    (h : ∃ u w, l = u ++ P ++ w) : ∃ u w, acronymPass l = u ++ P ++ w := by
  obtain ⟨u, w, hl⟩ := h
  have hmap : l.map dotToSpace = u.map dotToSpace ++ P ++ w.map dotToSpace := by
    rw [hl, List.append_assoc, List.map_append, List.map_append,
      map_dotToSpace_eq_self P hdot, List.append_assoc]
  obtain ⟨tok, htokmem, hocc⟩ :=
    splitWs_token_of_sub P hP hws (l.map dotToSpace) ⟨_, _, hmap⟩
  have htoklen : 4 ≤ tok.length := by
    obtain ⟨u2, w2, h2⟩ := hocc
    rw [h2]
    simp [List.length_append]
    omega
  have hfixmem : tok ∈ (splitWs (l.map dotToSpace)).map phoneticFix :=
    List.mem_map.mpr ⟨tok, htokmem, phoneticFix_long tok htoklen⟩
  rw [acronymPass]
  exact joinSpace_keeps_sub P _ tok hfixmem hocc

/-- The conditional acronym stage preserves such occurrences. -/
lemma acronymStage_keeps_sub (P : List Char) (hP : P ≠ [])
    (hws : ∀ c ∈ P, isWs c = false) (hdot : ∀ c ∈ P, c ≠ '.')
    (hlen : 4 ≤ P.length) (l : List Char)
    (h : ∃ u w, l = u ++ P ++ w) : ∃ u w, acronymStage l = u ++ P ++ w := by
  rw [acronymStage]
  split
  · exact acronymPass_keeps_sub P hP hws hdot hlen l h
  · exact h

/-- C10: the mishearing table carries the control entry
`'_acronym_timeout' -> '2000'` as its final entry, and for every input
whose lowercased trimmed form contains `'_acronym_timeout'`, the substring
still survives the acronym stage and the sixteen preceding table entries
(none of which can overlap it), so `normalizeCommand` ends by replacing
its first occurrence with `'2000'` — such input does not pass through the
normalizer unchanged, and the entry (like every entry) replaces only the
first occurrence. -/
theorem mishearing_acronym_timeout (x : String)
    (h : containsSub acronymTimeoutKey (lowerTrim x.data) = true) :
    containsSub acronymTimeoutKey
      (mishearingMap.dropLast.foldl applyMishear
        (acronymStage (lowerTrim x.data))) = true ∧
    normalizeCommand x =
      String.mk (replaceFirst acronymTimeoutKey acronymTimeoutVal
        (mishearingMap.dropLast.foldl applyMishear
          (acronymStage (lowerTrim x.data)))) ∧
    mishearingMap.getLast? = some (acronymTimeoutKey, acronymTimeoutVal) := by
  have hPne : acronymTimeoutKey ≠ [] := by decide
  have hPws : ∀ c ∈ acronymTimeoutKey, isWs c = false := by decide
  have hPdot : ∀ c ∈ acronymTimeoutKey, c ≠ '.' := by decide
  have hPlen : 4 ≤ acronymTimeoutKey.length := by decide
  have hocc0 := (containsSub_iff acronymTimeoutKey (lowerTrim x.data)).mp h
  have hocc1 := acronymStage_keeps_sub _ hPne hPws hPdot hPlen _ hocc0
  have hdrop : ∀ e ∈ mishearingMap.dropLast,
      overlapB e.1 acronymTimeoutKey = false := by decide
  have hocc2 := foldl_applyMishear_keeps_sub _ hPne _ hdrop _ hocc1
  have h2 : containsSub acronymTimeoutKey
      (mishearingMap.dropLast.foldl applyMishear
        (acronymStage (lowerTrim x.data))) = true :=
    (containsSub_iff _ _).mpr hocc2
  refine ⟨h2, ?_, by decide⟩
  have hsplit : mishearingMap =
      mishearingMap.dropLast ++ [(acronymTimeoutKey, acronymTimeoutVal)] := by decide
  have key : normalizeCmdL x.data =
      replaceFirst acronymTimeoutKey acronymTimeoutVal
        (mishearingMap.dropLast.foldl applyMishear
          (acronymStage (lowerTrim x.data))) := by
    rw [normalizeCmdL, applyMishearings]
    conv_lhs => rw [hsplit]
    rw [List.foldl_append, List.foldl_cons, List.foldl_nil]
    simp only [applyMishear]
    rw [if_pos h2]
  exact congrArg String.mk key

/-- C10 witness: the control-entry behaviour instantiated at the input
`"_acronym_timeout"` itself. -/
theorem mishearing_acronym_timeout_witness :
    containsSub acronymTimeoutKey (lowerTrim "_acronym_timeout".data) = true ∧
    (containsSub acronymTimeoutKey
      (mishearingMap.dropLast.foldl applyMishear
        (acronymStage (lowerTrim ("_acronym_timeout" : String).data))) = true ∧
    normalizeCommand "_acronym_timeout" =
      String.mk (replaceFirst acronymTimeoutKey acronymTimeoutVal
        (mishearingMap.dropLast.foldl applyMishear
          (acronymStage (lowerTrim ("_acronym_timeout" : String).data)))) ∧
    mishearingMap.getLast? = some (acronymTimeoutKey, acronymTimeoutVal)) :=
  ⟨by decide, mishearing_acronym_timeout "_acronym_timeout" (by decide)⟩

end SOP
